import Mathlib

/-!
Verification of the Automata-Simulator visualization pipelines
(`visualize_syntax_tree.py` and `visualize_dfa.py`).

The development shallowly embeds the two Python source files:

* the recursive tree-layout function `calculate_tree_positions`,
  with exact rational coordinates in place of Python floats
  (all produced coordinates are sums of the spacing constants,
  which the algorithm manipulates exactly);
* the parallel-transition aggregation loop inside `draw_dfa`,
  with Python strings embedded as `List Char` so that
  `str.split(', ')` and string concatenation are modelled exactly;
* the degenerate-document guards of `draw_tree` / `draw_dfa`,
  the per-node drawing loop of `draw_dfa`, the accepting-state
  summary line of `main`, and the two JSON loaders.
-/

namespace AutomataSim

/-! ## Syntax tree data model

A tree node in `syntax_tree.json` is `{id, value, left?, right?}` where a
missing or null child is an absent subtree.  `nil` stands for Python's
`None` (or an absent `left`/`right` key). -/

inductive STree : Type where
  | nil : STree
  | node (id : Int) (value : String) (left : STree) (right : STree) : STree
deriving DecidableEq

namespace STree

/-- Number of nodes of a subtree. -/
def size : STree → Nat
  | .nil => 0
  | .node _ _ l r => size l + 1 + size r

/-- Node ids in preorder (current, left, right) — the order in which
`calculate_tree_positions` inserts keys into its dictionary. -/
def preorderIds : STree → List Int
  | .nil => []
  | .node i _ l r => i :: (preorderIds l ++ preorderIds r)

/-- Node ids in inorder (left, current, right). -/
def inorderIds : STree → List Int
  | .nil => []
  | .node i _ l r => inorderIds l ++ i :: inorderIds r

/-- Does every node of the tree have zero or two children? -/
def nondegenerate : STree → Bool
  | .nil => true
  | .node _ _ l r =>
    (decide (l = STree.nil) == decide (r = STree.nil)) &&
      nondegenerate l && nondegenerate r

/-- Predicate `isSubtree u t`: `u` occurs as a subtree of `t`
(including `t` itself). -/
def isSubtree (u : STree) : STree → Bool
  | .nil => u == .nil
  | .node i v l r => u == .node i v l r || isSubtree u l || isSubtree u r

end STree

open STree

/-- Embedding of `calculate_tree_positions` from
`visualize_syntax_tree.py` (lines 27–63).  The Python function returns a
dictionary `{node_id: (x, y)}` and the subtree's width; the dictionary is
keyed first by the current node, then updated with the left and the right
subtree's entries, which we keep as an association list in that insertion
order.  Coordinates are exact rationals. -/
def calculate_tree_positions (node : STree) (x y : ℚ) (level : Nat)
    (x_spacing y_spacing : ℚ) : List (Int × ℚ × ℚ) × ℚ :=
  match node with
  | .nil => ([], 0)
  | .node i _ l r =>
    let lp := calculate_tree_positions l x (y - y_spacing) (level + 1) x_spacing y_spacing
    let current_x := x + lp.2
    let rp := calculate_tree_positions r (current_x + x_spacing) (y - y_spacing)
      (level + 1) x_spacing y_spacing
    ((i, current_x, y) :: (lp.1 ++ rp.1), lp.2 + x_spacing + rp.2)

/-- The width returned by `calculate_tree_positions` is the node count
times the horizontal spacing unit, independently of the anchor. -/
theorem width_eq (t : STree) : ∀ (x y : ℚ) (lvl : Nat) (s ys : ℚ),
    (calculate_tree_positions t x y lvl s ys).2 = s * (size t : ℚ) := by
  induction t with
  | nil => intro x y lvl s ys; simp [calculate_tree_positions, size]
  | node i v l r ihl ihr =>
    intro x y lvl s ys
    simp only [calculate_tree_positions, size, ihl, ihr]
    push_cast
    ring

/-- The keys of the position mapping are exactly the preorder ids. -/
theorem keys_eq (t : STree) : ∀ (x y : ℚ) (lvl : Nat) (s ys : ℚ),
    (calculate_tree_positions t x y lvl s ys).1.map Prod.fst = preorderIds t := by
  induction t with
  | nil => intro x y lvl s ys; simp [calculate_tree_positions, preorderIds]
  | node i v l r ihl ihr =>
    intro x y lvl s ys
    simp [calculate_tree_positions, preorderIds, ihl, ihr]

theorem length_inorderIds (t : STree) : (inorderIds t).length = size t := by
  induction t with
  | nil => simp [inorderIds, size]
  | node i v l r ihl ihr => simp [inorderIds, size, ihl, ihr]; omega

/-- Every produced position lies at `x = anchor + s * k` where `k` is the
node's inorder rank: laying out a subtree spreads its nodes on the grid
of horizontal-spacing multiples, one column per inorder position. -/
theorem rank_eq (t : STree) : ∀ (x y : ℚ) (lvl : Nat) (s ys : ℚ),
    ∀ e ∈ (calculate_tree_positions t x y lvl s ys).1,
      ∃ k : Nat, (inorderIds t)[k]? = some e.1 ∧ e.2.1 = x + s * (k : ℚ) := by
  induction t with
  | nil => intro x y lvl s ys e he; simp [calculate_tree_positions] at he
  | node i v l r ihl ihr =>
    intro x y lvl s ys e he
    simp only [calculate_tree_positions, List.mem_cons, List.mem_append] at he
    rcases he with he | he | he
    · -- the current node, inorder rank = size of the left subtree
      refine ⟨(inorderIds l).length, ?_, ?_⟩
      · simp only [inorderIds]
        rw [List.getElem?_append_right (Nat.le_refl _)]
        simp [he]
      · subst he
        simp [width_eq, length_inorderIds]
    · -- a node of the left subtree: same anchor, same rank
      obtain ⟨k, hk, hx⟩ := ihl x (y - ys) (lvl + 1) s ys e he
      have hklt : k < (inorderIds l).length := by
        by_contra hge
        rw [List.getElem?_eq_none (Nat.le_of_not_lt hge)] at hk
        exact Option.noConfusion hk
      refine ⟨k, ?_, hx⟩
      simp only [inorderIds]
      rw [List.getElem?_append_left hklt]
      exact hk
    · -- a node of the right subtree: anchor shifted by (size l + 1) columns
      obtain ⟨k, hk, hx⟩ := ihr (x + (calculate_tree_positions l x (y - ys) (lvl + 1) s ys).2 + s)
        (y - ys) (lvl + 1) s ys e he
      refine ⟨(inorderIds l).length + 1 + k, ?_, ?_⟩
      · simp only [inorderIds]
        rw [List.getElem?_append_right (by omega)]
        have : (inorderIds l).length + 1 + k - (inorderIds l).length = k + 1 := by omega
        rw [this]
        simpa using hk
      · rw [hx, width_eq, length_inorderIds]
        push_cast
        ring

/-- Key uniqueness in an association list whose keys are `Nodup`. -/
theorem uniq_key : ∀ (L : List (Int × ℚ × ℚ)), (L.map Prod.fst).Nodup →
    ∀ {k : Int} {a b : ℚ × ℚ}, (k, a) ∈ L → (k, b) ∈ L → a = b := by
  intro L
  induction L with
  | nil => intro _ k a b ha; simp at ha
  | cons hd tl ih =>
    intro hnd k a b ha hb
    simp only [List.map_cons, List.nodup_cons] at hnd
    rcases List.mem_cons.mp ha with ha' | ha' <;>
      rcases List.mem_cons.mp hb with hb' | hb'
    · exact congrArg Prod.snd (ha'.trans hb'.symm)
    · exact absurd (List.mem_map.mpr ⟨(k, b), hb', by rw [← ha']⟩) hnd.1
    · exact absurd (List.mem_map.mpr ⟨(k, a), ha', by rw [← hb']⟩) hnd.1
    · exact ih hnd.2 ha' hb'

/-- Laying out the whole tree lays out each subtree at some anchor:
every position entry produced for a subtree appears among the whole
tree's entries. -/
theorem subtree_transfer (s ys : ℚ) (u : STree) : ∀ (t : STree),
    isSubtree u t = true → ∀ (x y : ℚ) (lvl : Nat),
    ∃ (x' y' : ℚ) (lvl' : Nat),
      ∀ e ∈ (calculate_tree_positions u x' y' lvl' s ys).1,
        e ∈ (calculate_tree_positions t x y lvl s ys).1 := by
  intro t
  induction t with
  | nil =>
    intro h x y lvl
    simp only [isSubtree, beq_iff_eq] at h
    subst h
    exact ⟨x, y, lvl, by intro e he; simpa [calculate_tree_positions] using he⟩
  | node i v l r ihl ihr =>
    intro h x y lvl
    simp only [isSubtree, Bool.or_eq_true, beq_iff_eq] at h
    rcases h with (h | h) | h
    · subst h; exact ⟨x, y, lvl, fun e he => he⟩
    · obtain ⟨x', y', lvl', htr⟩ := ihl h x (y - ys) (lvl + 1)
      refine ⟨x', y', lvl', fun e he => ?_⟩
      simp only [calculate_tree_positions, List.mem_cons, List.mem_append]
      exact Or.inr (Or.inl (htr e he))
    · obtain ⟨x', y', lvl', htr⟩ := ihr h
        (x + (calculate_tree_positions l x (y - ys) (lvl + 1) s ys).2 + s)
        (y - ys) (lvl + 1)
      refine ⟨x', y', lvl', fun e he => ?_⟩
      simp only [calculate_tree_positions, List.mem_cons, List.mem_append]
      exact Or.inr (Or.inr (htr e he))

/-- The root of a subtree is placed at `anchor + s * (size of its left
child)`, and its entry heads the returned mapping. -/
theorem root_entry_mem (i : Int) (v : String) (l r : STree) (x y : ℚ) (lvl : Nat)
    (s ys : ℚ) :
    (i, x + s * (size l : ℚ), y) ∈
      (calculate_tree_positions (STree.node i v l r) x y lvl s ys).1 := by
  simp [calculate_tree_positions, width_eq]

/-- Entries of the left subtree's layout (anchored at the parent's x,
one vertical unit below) are entries of the parent's layout. -/
theorem mem_left_subtree (i : Int) (v : String) (l r : STree) (x y : ℚ) (lvl : Nat)
    (s ys : ℚ) (e : Int × ℚ × ℚ)
    (he : e ∈ (calculate_tree_positions l x (y - ys) (lvl + 1) s ys).1) :
    e ∈ (calculate_tree_positions (STree.node i v l r) x y lvl s ys).1 := by
  simp only [calculate_tree_positions, List.mem_cons, List.mem_append]
  exact Or.inr (Or.inl he)

/-- Entries of the right subtree's layout (anchored one horizontal unit
right of the parent) are entries of the parent's layout. -/
theorem mem_right_subtree (i : Int) (v : String) (l r : STree) (x y : ℚ) (lvl : Nat)
    (s ys : ℚ) (e : Int × ℚ × ℚ)
    (he : e ∈ (calculate_tree_positions r
      (x + (calculate_tree_positions l x (y - ys) (lvl + 1) s ys).2 + s)
      (y - ys) (lvl + 1) s ys).1) :
    e ∈ (calculate_tree_positions (STree.node i v l r) x y lvl s ys).1 := by
  simp only [calculate_tree_positions, List.mem_cons, List.mem_append]
  exact Or.inr (Or.inr he)

/-- A sample tree used by the concrete instantiations below:
the syntax tree of the regex `a.b` (root `.` with leaves `a`, `b`). -/
def sampleTree : STree :=
  .node 0 "." (.node 1 "a" .nil .nil) (.node 2 "b" .nil .nil)

/-- C3. Tree layout: in a non-degenerate tree (every node has 0 or 2
children), no two distinct nodes at the same depth (same y-coordinate,
the layout's encoding of depth) receive the same x-coordinate.  The
proof shows the stronger fact that the x-coordinates of distinct nodes
are always distinct: each node sits at `anchor + x_spacing * (inorder
rank)`. -/
theorem tree_layout_distinct_x (t : STree) (x y s ys : ℚ) (lvl : Nat)
    (e1 e2 : Int × ℚ × ℚ)
    (hs : 0 < s)
    (hnd : nondegenerate t = true)
    (h1 : e1 ∈ (calculate_tree_positions t x y lvl s ys).1)
    (h2 : e2 ∈ (calculate_tree_positions t x y lvl s ys).1)
    (hid : e1.1 ≠ e2.1) (hy : e1.2.2 = e2.2.2) :
    e1.2.1 ≠ e2.2.1 := by
  obtain ⟨k1, hk1, hx1⟩ := rank_eq t x y lvl s ys e1 h1
  obtain ⟨k2, hk2, hx2⟩ := rank_eq t x y lvl s ys e2 h2
  intro heq
  apply hid
  have hmul : s * (k1 : ℚ) = s * (k2 : ℚ) := by
    rw [heq] at hx1
    linarith [hx1, hx2]
  have hks : (k1 : ℚ) = (k2 : ℚ) := mul_left_cancel₀ (ne_of_gt hs) hmul
  have hk : k1 = k2 := Nat.cast_injective hks
  rw [hk] at hk1
  rw [hk1] at hk2
  exact Option.some.inj hk2

theorem tree_layout_distinct_x_witness :
    ((1 : Int), (0 : ℚ), (-(6/5) : ℚ)) ∈
      (calculate_tree_positions sampleTree 0 0 0 (3/2) (6/5)).1 ∧
    ((1 : Int), (0 : ℚ), (-(6/5) : ℚ)).2.1 ≠ ((2 : Int), (3 : ℚ), (-(6/5) : ℚ)).2.1 := by
  have hm1 : ((1 : Int), (0 : ℚ), (-(6/5) : ℚ)) ∈
      (calculate_tree_positions sampleTree 0 0 0 (3/2) (6/5)).1 := by
    simp [calculate_tree_positions, sampleTree]
  have hm2 : ((2 : Int), (3 : ℚ), (-(6/5) : ℚ)) ∈
      (calculate_tree_positions sampleTree 0 0 0 (3/2) (6/5)).1 := by
    simp [calculate_tree_positions, sampleTree]
  exact ⟨hm1, tree_layout_distinct_x sampleTree 0 0 (3/2) (6/5) 0 _ _ (by norm_num)
    (by decide) hm1 hm2 (by decide) rfl⟩

/-- C4. Tree layout: whenever a node of the tree has both a left and a
right child, the x-coordinate assigned to the left child is strictly
less than the x-coordinate assigned to the right child. -/
theorem tree_layout_left_lt_right
    (t ll lr rl rr : STree) (i il ir : Int) (v vl vr : String)
    (x y s ys : ℚ) (lvl : Nat) (xl yl xr yr : ℚ)
    (hs : 0 < s)
    (hnd : (preorderIds t).Nodup)
    (hsub : isSubtree (.node i v (.node il vl ll lr) (.node ir vr rl rr)) t = true)
    (hl : (il, xl, yl) ∈ (calculate_tree_positions t x y lvl s ys).1)
    (hr : (ir, xr, yr) ∈ (calculate_tree_positions t x y lvl s ys).1) :
    xl < xr := by
  obtain ⟨x', y', lvl', htr⟩ := subtree_transfer s ys _ t hsub x y lvl
  have hkeys : ((calculate_tree_positions t x y lvl s ys).1.map Prod.fst).Nodup := by
    rw [keys_eq]; exact hnd
  -- the left child's entry at the subtree's anchor
  have hmeml : (il, x' + s * (size ll : ℚ), y' - ys) ∈
      (calculate_tree_positions (STree.node i v (.node il vl ll lr) (.node ir vr rl rr))
        x' y' lvl' s ys).1 :=
    mem_left_subtree i v _ _ x' y' lvl' s ys _
      (root_entry_mem il vl ll lr x' (y' - ys) (lvl' + 1) s ys)
  -- the right child's entry at the subtree's anchor
  have hmemr : (ir, x' + s * (size (STree.node il vl ll lr) : ℚ) + s + s * (size rl : ℚ),
      y' - ys) ∈
      (calculate_tree_positions (STree.node i v (.node il vl ll lr) (.node ir vr rl rr))
        x' y' lvl' s ys).1 := by
    have h0 := mem_right_subtree i v (STree.node il vl ll lr) (STree.node ir vr rl rr)
      x' y' lvl' s ys _
      (root_entry_mem ir vr rl rr
        (x' + (calculate_tree_positions (STree.node il vl ll lr) x' (y' - ys)
          (lvl' + 1) s ys).2 + s) (y' - ys) (lvl' + 1) s ys)
    rwa [width_eq] at h0
  have heql := uniq_key _ hkeys hl (htr _ hmeml)
  have heqr := uniq_key _ hkeys hr (htr _ hmemr)
  have hxl : xl = x' + s * (size ll : ℚ) := congrArg Prod.fst heql
  have hxr : xr = x' + s * (size (STree.node il vl ll lr) : ℚ) + s + s * (size rl : ℚ) :=
    congrArg Prod.fst heqr
  have h1 : (0 : ℚ) ≤ s * (size lr : ℚ) := mul_nonneg hs.le (Nat.cast_nonneg _)
  have h2 : (0 : ℚ) ≤ s * (size rl : ℚ) := mul_nonneg hs.le (Nat.cast_nonneg _)
  have hsz : (size (STree.node il vl ll lr) : ℚ) = (size ll : ℚ) + 1 + (size lr : ℚ) := by
    simp only [size]
    push_cast
    ring
  rw [hxl, hxr, hsz]
  have : s * ((size ll : ℚ) + 1 + (size lr : ℚ)) = s * (size ll : ℚ) + s + s * (size lr : ℚ) := by
    ring
  rw [this]
  linarith

theorem tree_layout_left_lt_right_witness :
    ((1 : Int), (0 : ℚ), (-(6/5) : ℚ)) ∈
      (calculate_tree_positions sampleTree 0 0 0 (3/2) (6/5)).1 ∧ ((0 : ℚ) < 3) := by
  have hm1 : ((1 : Int), (0 : ℚ), (-(6/5) : ℚ)) ∈
      (calculate_tree_positions sampleTree 0 0 0 (3/2) (6/5)).1 := by
    simp [calculate_tree_positions, sampleTree]
  have hm2 : ((2 : Int), (3 : ℚ), (-(6/5) : ℚ)) ∈
      (calculate_tree_positions sampleTree 0 0 0 (3/2) (6/5)).1 := by
    simp [calculate_tree_positions, sampleTree]
  exact ⟨hm1, tree_layout_left_lt_right sampleTree .nil .nil .nil .nil 0 1 2 "." "a" "b"
    0 0 (3/2) (6/5) 0 0 (-(6/5)) 3 (-(6/5)) (by norm_num) (by decide) (by decide) hm1 hm2⟩

/-- C5. Tree layout: the keys of the returned position mapping are
exactly the node ids reachable from the root (in the dictionary's
insertion order, which is the preorder traversal); when the tree's ids
are unique every id gets exactly one entry; an empty (absent) subtree
yields an empty mapping and width 0. -/
theorem tree_layout_positions_complete (t : STree) (x y s ys : ℚ) (lvl : Nat) :
    ((calculate_tree_positions t x y lvl s ys).1.map Prod.fst = preorderIds t) ∧
    ((preorderIds t).Nodup →
      ((calculate_tree_positions t x y lvl s ys).1.map Prod.fst).Nodup) ∧
    calculate_tree_positions STree.nil x y lvl s ys = ([], 0) := by
  refine ⟨keys_eq t x y lvl s ys, ?_, rfl⟩
  intro h
  rw [keys_eq t x y lvl s ys]
  exact h

theorem tree_layout_positions_complete_witness :
    ((calculate_tree_positions sampleTree 0 0 0 (3/2) (6/5)).1.map Prod.fst).Nodup :=
  (tree_layout_positions_complete sampleTree 0 0 (3/2) (6/5) 0).2.1 (by decide)

/-- C10. Tree layout: the total width returned for a subtree equals the
number of nodes in the subtree multiplied by the horizontal spacing
unit (so sibling subtrees occupy disjoint horizontal bands proportional
to their node counts).  Proven for every subtree, hence in particular
for every non-empty one. -/
theorem tree_layout_width (t : STree) (x y s ys : ℚ) (lvl : Nat) :
    (calculate_tree_positions t x y lvl s ys).2 = s * (size t : ℚ) :=
  width_eq t x y lvl s ys

/-! ## DFA data model and transition aggregation

`visualize_dfa.py` merges parallel transitions inside `draw_dfa`
(lines 45–59): it keeps a `networkx` edge set and a dictionary
`edge_labels` keyed by the ordered pair `(from, to)`.  Python strings
are embedded as `List Char` so that `label.split(', ')` and
`label + ', ' + symbol` are modelled character-exactly. -/

/-- A Python string, as its character sequence. -/
abbrev Sym := List Char

structure DfaState where
  id : Int
  accepting : Bool
deriving DecidableEq

/-- A raw transition record `{from, to, symbol}`. -/
structure DfaTrans where
  fromState : Int
  symbol : Sym
  toState : Int
deriving DecidableEq

/-- The parsed `dfa.json` document.  `start_state` is `none` when the
key is absent (`dfa_data.get('start_state')` returns Python `None`). -/
structure DfaDoc where
  states : List DfaState
  start_state : Option Int
  transitions : List DfaTrans
deriving DecidableEq

/-- Python `s.split(', ')` for the two-character separator used by the
label aggregation: scan left to right, cutting at each (leftmost,
non-overlapping) occurrence of `", "`. -/
def splitCS : List Char → List (List Char)
  | [] => [[]]
  | [c] => [[c]]
  | c1 :: c2 :: rest =>
    if c1 = ',' ∧ c2 = ' ' then [] :: splitCS rest
    else
      match splitCS (c2 :: rest) with
      | [] => [[c1]]
      | h :: t => (c1 :: h) :: t

/-- Python join `', '.join(l)`. -/
def joinCS : List (List Char) → List Char
  | [] => []
  | [l] => l
  | l :: r :: rest => l ++ ',' :: ' ' :: joinCS (r :: rest)

/-- Does the separator `", "` occur inside the string? -/
def hasSep : List Char → Bool
  | [] => false
  | [_] => false
  | c1 :: c2 :: rest => (c1 = ',' && c2 = ' ') || hasSep (c2 :: rest)

/-- Dictionary update for the `edge_labels` dict: replaces the value of
an existing key in place, appends a new key at the end (Python dict
insertion-order semantics). -/
def setLabel : List ((Int × Int) × Sym) → (Int × Int) → Sym → List ((Int × Int) × Sym)
  | [], p, s => [(p, s)]
  | (q, t) :: rest, p, s =>
    if q = p then (q, s) :: rest else (q, t) :: setLabel rest p s

/-- Dictionary lookup `edge_labels[(from, to)]` (`none` = `KeyError`). -/
def getLabel : List ((Int × Int) × Sym) → (Int × Int) → Option Sym
  | [], _ => none
  | (q, s) :: rest, p => if q = p then some s else getLabel rest p

/-- Accumulator of the edge loop in `draw_dfa`: the `networkx` edge set
(in insertion order) and the `edge_labels` dictionary. -/
structure EdgeAcc where
  edges : List (Int × Int)
  edge_labels : List ((Int × Int) × Sym)
deriving DecidableEq

/-- One iteration of the transition loop of `draw_dfa` (lines 46–59):
if the graph already has the edge, append the symbol to its label
unless the symbol is already among the label's `', '`-separated parts;
otherwise add the edge with the symbol as its label. -/
def addTransition (acc : EdgeAcc) (t : DfaTrans) : EdgeAcc :=
  let from_state := t.fromState
  let to_state := t.toState
  if (from_state, to_state) ∈ acc.edges then
    let current_label := (getLabel acc.edge_labels (from_state, to_state)).getD []
    if t.symbol ∈ splitCS current_label then acc
    else
      let new_label := current_label ++ ',' :: ' ' :: t.symbol
      ⟨acc.edges, setLabel acc.edge_labels (from_state, to_state) new_label⟩
  else
    ⟨acc.edges ++ [(from_state, to_state)],
      setLabel acc.edge_labels (from_state, to_state) t.symbol⟩

/-- The whole aggregation loop over the document's transitions. -/
def draw_dfa_edges (ts : List DfaTrans) : EdgeAcc :=
  ts.foldl addTransition ⟨[], []⟩

/-- The ordered `(from, to)` pairs of a transition list. -/
def pairsOf (ts : List DfaTrans) : List (Int × Int) :=
  ts.map fun t => (t.fromState, t.toState)

/-- The symbols of all transitions with the given ordered pair, in
document order. -/
def symbolsFor (p : Int × Int) (ts : List DfaTrans) : List Sym :=
  (ts.filter fun t => (t.fromState, t.toState) == p).map DfaTrans.symbol

/-- First-appearance de-duplication (keeps the first occurrence of each
element, in order), with an accumulator of already-seen elements. -/
def firstDedupAux {α : Type} [DecidableEq α] (acc : List α) : List α → List α
  | [] => []
  | s :: r => if s ∈ acc then firstDedupAux acc r else s :: firstDedupAux (acc ++ [s]) r

def firstDedup {α : Type} [DecidableEq α] (l : List α) : List α :=
  firstDedupAux [] l

/-! ### Split / join round-trip -/

/-- A string without the separator splits into itself alone. -/
theorem splitCS_no_sep : ∀ (l : List Char), hasSep l = false → splitCS l = [l] := by
  intro l
  induction l with
  | nil => intro _; rfl
  | cons c1 rest ih =>
    cases rest with
    | nil => intro _; rfl
    | cons c2 r =>
      intro h
      simp only [hasSep, Bool.or_eq_false_iff, Bool.and_eq_false_iff,
        decide_eq_false_iff_not] at h
      have hcond : ¬(c1 = ',' ∧ c2 = ' ') := by
        intro hc; rcases h.1 with h' | h' <;> exact h' (by simp [hc.1, hc.2])
      simp only [splitCS, if_neg hcond, ih h.2]

/-- One unfolding step of `splitCS` when the head is not a separator
occurrence. -/
theorem splitCS_cons_cons (c1 c2 : Char) (r : List Char)
    (h : ¬(c1 = ',' ∧ c2 = ' ')) :
    splitCS (c1 :: c2 :: r) =
      match splitCS (c2 :: r) with
      | [] => [[c1]]
      | h :: t => (c1 :: h) :: t := by
  show (if c1 = ',' ∧ c2 = ' ' then [] :: splitCS r
    else match splitCS (c2 :: r) with
      | [] => [[c1]]
      | h :: t => (c1 :: h) :: t) =
    match splitCS (c2 :: r) with
    | [] => [[c1]]
    | h :: t => (c1 :: h) :: t
  rw [if_neg h]

/-- Splitting cuts at a separator occurrence at the head. -/
theorem splitCS_sep_head (m : List Char) :
    splitCS (',' :: ' ' :: m) = [] :: splitCS m := by
  show (if (',' : Char) = ',' ∧ (' ' : Char) = ' ' then [] :: splitCS m
    else match splitCS (' ' :: m) with
      | [] => [[',']]
      | h :: t => (',' :: h) :: t) = [] :: splitCS m
  rw [if_pos ⟨rfl, rfl⟩]

/-- Splitting `l ++ ", " ++ m` with separator-free `l` cuts exactly at
the freshly inserted separator. -/
theorem splitCS_append_sep : ∀ (l m : List Char), hasSep l = false →
    splitCS (l ++ ',' :: ' ' :: m) = l :: splitCS m := by
  intro l
  induction l with
  | nil => intro m _; simp only [List.nil_append]; exact splitCS_sep_head m
  | cons c1 rest ih =>
    cases rest with
    | nil =>
      intro m _
      show splitCS (c1 :: ',' :: ' ' :: m) = [c1] :: splitCS m
      rw [splitCS_cons_cons c1 ',' (' ' :: m)
        (by rintro ⟨_, h⟩; exact absurd h (by decide))]
      rw [splitCS_sep_head m]
    | cons c2 r =>
      intro m h
      simp only [hasSep, Bool.or_eq_false_iff, Bool.and_eq_false_iff,
        decide_eq_false_iff_not] at h
      have hcond : ¬(c1 = ',' ∧ c2 = ' ') := by
        intro hc; rcases h.1 with h' | h' <;> exact h' (by simp [hc.1, hc.2])
      have ih' := ih m h.2
      rw [List.cons_append] at ih'
      show splitCS (c1 :: ((c2 :: r) ++ ',' :: ' ' :: m)) = (c1 :: c2 :: r) :: splitCS m
      rw [List.cons_append]
      rw [splitCS_cons_cons c1 c2 (r ++ ',' :: ' ' :: m) hcond]
      rw [ih']

/-- Joining a list extended by one element. -/
theorem joinCS_append : ∀ (L : List Sym) (s : Sym), L ≠ [] →
    joinCS (L ++ [s]) = joinCS L ++ ',' :: ' ' :: s := by
  intro L
  induction L with
  | nil => intro s h; exact absurd rfl h
  | cons l rest ih =>
    intro s _
    cases rest with
    | nil => rfl
    | cons r rest' =>
      show l ++ ',' :: ' ' :: joinCS ((r :: rest') ++ [s]) =
        joinCS (l :: r :: rest') ++ ',' :: ' ' :: s
      rw [ih s (by simp)]
      simp [joinCS, List.cons_append, List.append_assoc]

/-- Round trip: splitting a `', '`-join of separator-free parts
recovers the parts. -/
theorem splitCS_joinCS : ∀ (L : List Sym), (∀ l ∈ L, hasSep l = false) → L ≠ [] →
    splitCS (joinCS L) = L := by
  intro L
  induction L with
  | nil => intro _ h; exact absurd rfl h
  | cons l rest ih =>
    intro h _
    cases rest with
    | nil => exact splitCS_no_sep l (h l (List.mem_cons_self l []))
    | cons r rest' =>
      show splitCS (joinCS (l :: r :: rest')) = _
      simp only [joinCS]
      rw [splitCS_append_sep l _ (h l (List.mem_cons_self l _))]
      rw [ih (fun x hx => h x (List.mem_cons_of_mem l hx)) (by simp)]

/-! ### First-appearance de-duplication -/

theorem mem_firstDedupAux {α : Type} [DecidableEq α] :
    ∀ (l acc : List α) (a : α), a ∈ firstDedupAux acc l ↔ a ∈ l ∧ a ∉ acc := by
  intro l
  induction l with
  | nil => intro acc a; simp [firstDedupAux]
  | cons s r ih =>
    intro acc a
    by_cases hs : s ∈ acc
    · rw [firstDedupAux, if_pos hs, ih]
      constructor
      · rintro ⟨h1, h2⟩; exact ⟨List.mem_cons_of_mem s h1, h2⟩
      · rintro ⟨h1, h2⟩
        rcases List.mem_cons.mp h1 with h' | h'
        · exact absurd (h' ▸ hs) h2
        · exact ⟨h', h2⟩
    · rw [firstDedupAux, if_neg hs]
      by_cases ha : a = s
      · subst ha; simp [hs]
      · simp only [List.mem_cons, ha, false_or, ih, List.mem_append,
          List.mem_singleton, or_false]
        tauto

theorem mem_firstDedup {α : Type} [DecidableEq α] (l : List α) (a : α) :
    a ∈ firstDedup l ↔ a ∈ l := by
  rw [firstDedup, mem_firstDedupAux]
  simp

theorem firstDedupAux_concat {α : Type} [DecidableEq α] :
    ∀ (l acc : List α) (a : α),
      firstDedupAux acc (l ++ [a]) =
        firstDedupAux acc l ++ (if a ∈ acc ++ l then [] else [a]) := by
  intro l
  induction l with
  | nil => intro acc a; simp [firstDedupAux]
  | cons s r ih =>
    intro acc a
    by_cases hs : s ∈ acc
    · have hiff : (a ∈ acc ++ r) ↔ (a ∈ acc ++ s :: r) := by
        by_cases ha : a = s
        · subst ha; simp [hs]
        · simp only [List.mem_append, List.mem_cons, ha, false_or]
      rw [List.cons_append, firstDedupAux, if_pos hs, firstDedupAux, if_pos hs, ih,
        if_congr hiff rfl rfl]
    · have hiff : (a ∈ (acc ++ [s]) ++ r) ↔ (a ∈ acc ++ s :: r) := by
        simp only [List.mem_append, List.mem_singleton, List.mem_cons]
        tauto
      rw [List.cons_append, firstDedupAux, if_neg hs, firstDedupAux, if_neg hs, ih,
        if_congr hiff rfl rfl]
      rw [List.cons_append]

theorem firstDedup_concat {α : Type} [DecidableEq α] (l : List α) (a : α) :
    firstDedup (l ++ [a]) =
      if a ∈ l then firstDedup l else firstDedup l ++ [a] := by
  by_cases ha : a ∈ l
  · rw [firstDedup, firstDedupAux_concat, if_pos (by simpa using ha), if_pos ha]
    simp [firstDedup]
  · rw [firstDedup, firstDedupAux_concat, if_neg (by simpa using ha), if_neg ha]
    simp [firstDedup]

theorem firstDedupAux_sublist {α : Type} [DecidableEq α] :
    ∀ (l acc : List α), List.Sublist (firstDedupAux acc l) l := by
  intro l
  induction l with
  | nil => intro acc; simp [firstDedupAux]
  | cons s r ih =>
    intro acc
    rw [firstDedupAux]
    by_cases hs : s ∈ acc
    · rw [if_pos hs]; exact (ih acc).cons s
    · rw [if_neg hs]; exact (ih (acc ++ [s])).cons₂ s

theorem firstDedup_nodup {α : Type} [DecidableEq α] :
    ∀ (l acc : List α), (firstDedupAux acc l).Nodup := by
  intro l
  induction l with
  | nil => intro acc; simp [firstDedupAux]
  | cons s r ih =>
    intro acc
    rw [firstDedupAux]
    by_cases hs : s ∈ acc
    · rw [if_pos hs]; exact ih acc
    · rw [if_neg hs]
      refine List.nodup_cons.mpr ⟨?_, ih (acc ++ [s])⟩
      rw [mem_firstDedupAux]
      rintro ⟨_, h2⟩
      exact h2 (by simp)

theorem firstDedupAux_of_nodup {α : Type} [DecidableEq α] :
    ∀ (l acc : List α), l.Nodup → (∀ a ∈ l, a ∉ acc) → firstDedupAux acc l = l := by
  intro l
  induction l with
  | nil => intro acc _ _; rfl
  | cons s r ih =>
    intro acc hnd hdisj
    rw [firstDedupAux, if_neg (hdisj s (List.mem_cons_self s r))]
    congr 1
    refine ih _ (List.nodup_cons.mp hnd).2 ?_
    intro a ha
    simp only [List.mem_append, List.mem_singleton]
    rintro (h | h)
    · exact hdisj a (List.mem_cons_of_mem s ha) h
    · exact (List.nodup_cons.mp hnd).1 (h ▸ ha)

theorem firstDedup_eq_self_iff {α : Type} [DecidableEq α] (l : List α) :
    firstDedup l = l ↔ l.Nodup := by
  constructor
  · intro h; rw [← h]; exact firstDedup_nodup l []
  · intro h; exact firstDedupAux_of_nodup l [] h (by simp)

theorem firstDedup_eq_nil_iff {α : Type} [DecidableEq α] (l : List α) :
    firstDedup l = [] ↔ l = [] := by
  constructor
  · intro h
    cases l with
    | nil => rfl
    | cons s r =>
      have : s ∈ firstDedup (s :: r) := (mem_firstDedup _ s).mpr (List.mem_cons_self s r)
      rw [h] at this
      exact absurd this (List.not_mem_nil s)
  · intro h; subst h; rfl

/-! ### Dictionary lemmas for `edge_labels` -/

theorem getLabel_setLabel_self : ∀ (ls : List ((Int × Int) × Sym)) (p : Int × Int) (s : Sym),
    getLabel (setLabel ls p s) p = some s := by
  intro ls p s
  induction ls with
  | nil => simp [setLabel, getLabel]
  | cons e rest ih =>
    obtain ⟨q, t⟩ := e
    by_cases hq : q = p
    · simp only [setLabel, if_pos hq, getLabel]
    · simp only [setLabel, if_neg hq, getLabel]
      exact ih

theorem getLabel_setLabel_ne : ∀ (ls : List ((Int × Int) × Sym)) (p q : Int × Int) (s : Sym),
    q ≠ p → getLabel (setLabel ls p s) q = getLabel ls q := by
  intro ls p q s hne
  induction ls with
  | nil =>
    simp only [setLabel, getLabel]
    rw [if_neg (fun h => hne h.symm)]
  | cons e rest ih =>
    obtain ⟨q', t⟩ := e
    by_cases hq : q' = p
    · simp only [setLabel, if_pos hq, getLabel]
      have h2 : ¬ q' = q := by
        intro h
        exact hne (Eq.symm (Eq.trans (Eq.symm hq) h))
      rw [if_neg h2, if_neg h2]
    · simp only [setLabel, if_neg hq, getLabel]
      by_cases hq' : q' = q
      · rw [if_pos hq', if_pos hq']
      · rw [if_neg hq', if_neg hq', ih]

/-! ### The aggregation invariant -/

/-- The edge set evolves independently of labels: one step adds the
transition's pair iff it is new. -/
theorem addTransition_edges (acc : EdgeAcc) (t : DfaTrans) :
    (addTransition acc t).edges =
      if (t.fromState, t.toState) ∈ acc.edges then acc.edges
      else acc.edges ++ [(t.fromState, t.toState)] := by
  rw [addTransition]
  by_cases hmem : (t.fromState, t.toState) ∈ acc.edges
  · rw [if_pos hmem, if_pos hmem]
    by_cases hsym : t.symbol ∈ splitCS ((getLabel acc.edge_labels
        (t.fromState, t.toState)).getD [])
    · rw [if_pos hsym]
    · rw [if_neg hsym]
  · rw [if_neg hmem, if_neg hmem]

theorem pairsOf_concat (ts : List DfaTrans) (t : DfaTrans) :
    pairsOf (ts ++ [t]) = pairsOf ts ++ [(t.fromState, t.toState)] := by
  simp [pairsOf]

theorem symbolsFor_concat (p : Int × Int) (ts : List DfaTrans) (t : DfaTrans) :
    symbolsFor p (ts ++ [t]) =
      symbolsFor p ts ++
        (if (t.fromState, t.toState) = p then [t.symbol] else []) := by
  by_cases hp : (t.fromState, t.toState) = p
  · simp [symbolsFor, List.filter_append, hp]
  · simp [symbolsFor, List.filter_append, hp]

theorem symbolsFor_eq_nil_iff (p : Int × Int) (ts : List DfaTrans) :
    symbolsFor p ts = [] ↔ p ∉ pairsOf ts := by
  simp only [symbolsFor, List.map_eq_nil_iff, List.filter_eq_nil_iff, beq_iff_eq,
    pairsOf, List.mem_map]
  constructor
  · rintro h ⟨t, ht, hp⟩; exact h t ht hp
  · intro h t ht hp; exact h ⟨t, ht, hp⟩

theorem mem_symbolsFor (p : Int × Int) (ts : List DfaTrans) (l : Sym)
    (h : l ∈ symbolsFor p ts) : ∃ t ∈ ts, t.symbol = l := by
  simp only [symbolsFor, List.mem_map, List.mem_filter] at h
  obtain ⟨t, ⟨ht, _⟩, hsym⟩ := h
  exact ⟨t, ht, hsym⟩

theorem draw_dfa_edges_concat (ts : List DfaTrans) (t : DfaTrans) :
    draw_dfa_edges (ts ++ [t]) = addTransition (draw_dfa_edges ts) t := by
  simp [draw_dfa_edges, List.foldl_append]

/-- The aggregated edge set is the (first-appearance) de-duplication of
the transitions' ordered pairs, in insertion order. -/
theorem draw_dfa_edges_pairs (ts : List DfaTrans) :
    (draw_dfa_edges ts).edges = firstDedup (pairsOf ts) := by
  induction ts using List.reverseRecOn with
  | nil => rfl
  | append_singleton ts t ih =>
    rw [draw_dfa_edges_concat, addTransition_edges, ih, pairsOf_concat,
      firstDedup_concat]
    by_cases hmem : (t.fromState, t.toState) ∈ pairsOf ts
    · rw [if_pos hmem, if_pos ((mem_firstDedup _ _).mpr hmem)]
    · rw [if_neg hmem, if_neg (fun h => hmem ((mem_firstDedup _ _).mp h))]

/-- The label invariant of the aggregation loop: for every ordered pair,
the `edge_labels` entry is the `', '`-join of the pair's distinct symbols
in order of first appearance — provided no symbol contains the separator
`", "` (the loop recovers the symbol set by splitting the label, which
is only faithful for separator-free symbols). -/
theorem draw_dfa_edges_labels (ts : List DfaTrans)
    (hsep : ∀ t ∈ ts, hasSep t.symbol = false) :
    ∀ p : Int × Int,
      getLabel (draw_dfa_edges ts).edge_labels p =
        if symbolsFor p ts = [] then none
        else some (joinCS (firstDedup (symbolsFor p ts))) := by
  induction ts using List.reverseRecOn with
  | nil => intro p; simp [draw_dfa_edges, getLabel, symbolsFor]
  | append_singleton ts t ih =>
    have hsep' : ∀ t' ∈ ts, hasSep t'.symbol = false := fun t' ht' =>
      hsep t' (List.mem_append_left _ ht')
    have hsept : hasSep t.symbol = false := hsep t (List.mem_append_right _ (by simp))
    have ihl := ih hsep'
    intro p
    rw [draw_dfa_edges_concat]
    by_cases hq : (t.fromState, t.toState) = p
    case neg =>
      -- a pair different from the new transition's pair is untouched
      have hsym_eq : symbolsFor p (ts ++ [t]) = symbolsFor p ts := by
        rw [symbolsFor_concat, if_neg hq, List.append_nil]
      rw [hsym_eq, ← ihl p]
      rw [addTransition]
      by_cases hmem : (t.fromState, t.toState) ∈ (draw_dfa_edges ts).edges
      · rw [if_pos hmem]
        by_cases hsym : t.symbol ∈ splitCS ((getLabel (draw_dfa_edges ts).edge_labels
            (t.fromState, t.toState)).getD [])
        · rw [if_pos hsym]
        · rw [if_neg hsym]
          exact getLabel_setLabel_ne _ _ _ _ (fun h => hq h.symm)
      · rw [if_neg hmem]
        exact getLabel_setLabel_ne _ _ _ _ (fun h => hq h.symm)
    case pos =>
      have hedges : (draw_dfa_edges ts).edges = firstDedup (pairsOf ts) :=
        draw_dfa_edges_pairs ts
      have hsym_eq : symbolsFor p (ts ++ [t]) = symbolsFor p ts ++ [t.symbol] := by
        rw [symbolsFor_concat, if_pos hq]
      rw [addTransition, hq]
      by_cases hmem : p ∈ (draw_dfa_edges ts).edges
      case pos =>
        -- the pair already has an edge: the label is a join of its prior symbols
        have hpairs : p ∈ pairsOf ts := by
          rw [hedges] at hmem; exact (mem_firstDedup _ _).mp hmem
        have hsnil : ¬ symbolsFor p ts = [] :=
          fun h => (symbolsFor_eq_nil_iff p ts).mp h hpairs
        have hlab : getLabel (draw_dfa_edges ts).edge_labels p =
            some (joinCS (firstDedup (symbolsFor p ts))) := by
          rw [ihl p, if_neg hsnil]
        have hfd_ne : firstDedup (symbolsFor p ts) ≠ [] :=
          fun h => hsnil ((firstDedup_eq_nil_iff _).mp h)
        have hfd_sep : ∀ l ∈ firstDedup (symbolsFor p ts), hasSep l = false := by
          intro l hl
          obtain ⟨t', ht', hsym⟩ := mem_symbolsFor p ts l ((mem_firstDedup _ _).mp hl)
          exact hsym ▸ hsep' t' ht'
        have hsplit : splitCS ((getLabel (draw_dfa_edges ts).edge_labels p).getD []) =
            firstDedup (symbolsFor p ts) := by
          rw [hlab]
          exact splitCS_joinCS _ hfd_sep hfd_ne
        rw [if_pos hmem]
        simp only [hsplit]
        by_cases hin : t.symbol ∈ firstDedup (symbolsFor p ts)
        case pos =>
          rw [if_pos hin, ihl p, if_neg hsnil, hsym_eq]
          have hfd : firstDedup (symbolsFor p ts ++ [t.symbol]) =
              firstDedup (symbolsFor p ts) := by
            rw [firstDedup_concat, if_pos ((mem_firstDedup _ _).mp hin)]
          rw [hfd,
            if_neg (by
              intro h
              rcases List.append_eq_nil.mp h with ⟨h1, _⟩
              exact hsnil h1)]
        case neg =>
          rw [if_neg hin]
          show getLabel (setLabel (draw_dfa_edges ts).edge_labels p
            (((getLabel (draw_dfa_edges ts).edge_labels p).getD []) ++
              ',' :: ' ' :: t.symbol)) p =
            if symbolsFor p (ts ++ [t]) = [] then none
            else some (joinCS (firstDedup (symbolsFor p (ts ++ [t]))))
          rw [getLabel_setLabel_self, hsym_eq]
          have hnotmem : t.symbol ∉ symbolsFor p ts :=
            fun h => hin ((mem_firstDedup _ _).mpr h)
          rw [if_neg (by
              intro h
              rcases List.append_eq_nil.mp h with ⟨h1, _⟩
              exact hsnil h1),
            firstDedup_concat, if_neg hnotmem,
            joinCS_append _ _ hfd_ne]
          simp only [hlab, Option.getD_some]
      case neg =>
        -- a brand-new pair: its label is created as the bare symbol
        have hpairs : p ∉ pairsOf ts := by
          rw [hedges] at hmem
          exact fun h => hmem ((mem_firstDedup _ _).mpr h)
        have hsnil : symbolsFor p ts = [] := (symbolsFor_eq_nil_iff p ts).mpr hpairs
        rw [if_neg hmem]
        show getLabel (setLabel (draw_dfa_edges ts).edge_labels p t.symbol) p =
          if symbolsFor p (ts ++ [t]) = [] then none
          else some (joinCS (firstDedup (symbolsFor p (ts ++ [t]))))
        rw [getLabel_setLabel_self, hsym_eq, hsnil]
        simp [firstDedup, firstDedupAux, joinCS]

/-- C1 (amended). Transition aggregation: provided no transition symbol
contains the separator `", "` as a substring (in particular for all
single-character symbols), every ordered pair with at least one
transition gets exactly one merged edge (the edge list is duplicate-free
and holds exactly the pairs that occur), and the merged edge's label is
the `", "`-joined concatenation of the distinct symbols of the pair's
transitions in order of first appearance, each symbol exactly once.
Without the separator-free proviso the claim fails, see the
counterexample. -/
theorem transition_aggregation_label (ts : List DfaTrans)
    (hsep : ∀ t ∈ ts, hasSep t.symbol = false) :
    ((draw_dfa_edges ts).edges.Nodup ∧
      ∀ p : Int × Int, p ∈ (draw_dfa_edges ts).edges ↔ p ∈ pairsOf ts) ∧
    ∀ p : Int × Int,
      getLabel (draw_dfa_edges ts).edge_labels p =
        if symbolsFor p ts = [] then none
        else some (joinCS (firstDedup (symbolsFor p ts))) := by
  refine ⟨⟨?_, ?_⟩, draw_dfa_edges_labels ts hsep⟩
  · rw [draw_dfa_edges_pairs]
    exact firstDedup_nodup _ _
  · intro p
    rw [draw_dfa_edges_pairs]
    exact mem_firstDedup _ _

theorem transition_aggregation_label_witness :
    getLabel (draw_dfa_edges
        [⟨0, "a".toList, 1⟩, ⟨0, "b".toList, 1⟩, ⟨0, "a".toList, 1⟩]).edge_labels (0, 1) =
      some ("a, b".toList) := by
  have h := (transition_aggregation_label
      [⟨0, "a".toList, 1⟩, ⟨0, "b".toList, 1⟩, ⟨0, "a".toList, 1⟩] (by decide)).2 (0, 1)
  rw [h]
  decide

/-- C1 (counterexample to the claim as stated): with the two-transition
document `[(0, "a, b", 1), (0, "a", 1)]` the code leaves the label
`"a, b"`, whereas the comma-space-join of the distinct symbols in order
of first appearance would be `"a, b, a"`: the second symbol `"a"` is
dropped because it already appears as a split-part of the first label. -/
theorem transition_aggregation_label_counterexample :
    getLabel (draw_dfa_edges
        [⟨0, "a, b".toList, 1⟩, ⟨0, "a".toList, 1⟩]).edge_labels (0, 1) =
      some ("a, b".toList) ∧
    joinCS (firstDedup (symbolsFor (0, 1)
        [⟨0, "a, b".toList, 1⟩, ⟨0, "a".toList, 1⟩])) = "a, b, a".toList ∧
    ("a, b".toList : Sym) ≠ "a, b, a".toList :=
  ⟨by decide, by decide, by decide⟩

/-- C2. The number of merged edges is at most the number of raw
transitions, with equality exactly when no two transitions share an
ordered `(from, to)` pair. -/
theorem merged_edge_count (ts : List DfaTrans) :
    (draw_dfa_edges ts).edges.length ≤ ts.length ∧
    ((draw_dfa_edges ts).edges.length = ts.length ↔ (pairsOf ts).Nodup) := by
  have hp : (pairsOf ts).length = ts.length := by simp [pairsOf]
  rw [draw_dfa_edges_pairs]
  constructor
  · exact le_trans (firstDedupAux_sublist (pairsOf ts) []).length_le (le_of_eq hp)
  · constructor
    · intro h
      have heq : firstDedup (pairsOf ts) = pairsOf ts :=
        (firstDedupAux_sublist (pairsOf ts) []).eq_of_length (h.trans hp.symm)
      exact heq ▸ firstDedup_nodup (pairsOf ts) []
    · intro h
      rw [(firstDedup_eq_self_iff _).mpr h, hp]

/-! ## Rendering outcomes, node directives, summary line, loaders -/

/-- The parsed `syntax_tree.json` document (`root` is `STree.nil` when
the key is absent or null).  The Python field `postfix` is named
`postfix_expr` here. -/
structure TreeDoc where
  root : STree
  original_regex : String
  regex_with_concat : String
  postfix_expr : String
deriving DecidableEq

/-- Outcome of a drawing routine: either an early `return` after
printing a diagnostic (no image written), or completion of the routine
up to `plt.savefig(filename)`. -/
inductive DrawOutcome : Type where
  | skipped (diagnostic : String)
  | exported (filename : String)
deriving DecidableEq

/-- Control-flow skeleton of `draw_dfa` (lines 29–35 and 188): the only
guard is `if not states`; otherwise the figure is drawn and saved as
`dfa.png`.  Neither an absent `start_state` nor an empty transition
list is checked. -/
def draw_dfa_outcome (d : DfaDoc) : DrawOutcome :=
  if d.states = [] then .skipped "Error: No states found in DFA."
  else .exported "dfa.png"

/-- Control-flow skeleton of `draw_tree` (lines 68–71 and 164): the only
guard is `if root is None`; otherwise the tree is drawn and saved. -/
def draw_tree_outcome (td : TreeDoc) : DrawOutcome :=
  if td.root = STree.nil then .skipped "Error: No root node found in syntax tree."
  else .exported "syntax_tree.png"

/-- Semantics of `G.add_node(id, accepting=...)`: an existing node keeps
its position and gets the new attribute; a new node is appended. -/
def upsertNode : List (Int × Bool) → Int → Bool → List (Int × Bool)
  | [], i, b => [(i, b)]
  | (j, c) :: rest, i, b =>
    if j = i then (j, b) :: rest else (j, c) :: upsertNode rest i b

/-- The graph's node list after the `add_node` loop of `draw_dfa`
(lines 41–42). -/
def nodesOf (d : DfaDoc) : List (Int × Bool) :=
  d.states.foldl (fun ns s => upsertNode ns s.id s.accepting) []

/-- Per-node draw directives emitted by the node loop of `draw_dfa`
(lines 105–148): fill/outline colors, the accepting double circle, and
the start-indicator arrow together with its `'Start'` text. -/
structure NodeDirective where
  node_id : Int
  node_color : String
  edge_color : String
  outer_circle : Bool
  start_arrow : Bool
deriving DecidableEq

/-- One iteration of the node loop: classify by
`is_start = (node_id == start_state_id)` and the stored `accepting`
attribute, pick the fixed color pair, and emit the directives. -/
def drawNode (start_state_id : Option Int) (node_id : Int) (accepting : Bool) :
    NodeDirective :=
  let is_start := start_state_id == some node_id
  let is_accepting := accepting
  let colors : String × String :=
    if is_start && is_accepting then ("#90EE90", "#228B22")
    else if is_start then ("#87CEEB", "#4169E1")
    else if is_accepting then ("#FFB6C1", "#DC143C")
    else ("#F0F0F0", "#696969")
  ⟨node_id, colors.1, colors.2, is_accepting, is_start⟩

def nodeDirectives (d : DfaDoc) : List NodeDirective :=
  (nodesOf d).map fun nb => drawNode d.start_state nb.1 nb.2

/-- The accepting-state id list printed by `main`
(`[s['id'] for s in states if s['accepting']]`): the accepting states'
ids in document order, not sorted. -/
def accepting_states (d : DfaDoc) : List Int :=
  (d.states.filter fun s => s.accepting).map DfaState.id

/-- The printed summary line
`f"Accepting States:  {{{', '.join(map(str, accepting_states))}}}"`. -/
def accepting_states_line (d : DfaDoc) : String :=
  "Accepting States:  \x7b" ++
    String.intercalate ", " ((accepting_states d).map toString) ++ "\x7d"

/-- The filesystem as seen by a loader: the input file is absent, or
present with some text content. -/
inductive FsFile : Type where
  | absent
  | present (content : String)

/-- Result of a loader: the parsed document, or `sys.exit(status)`
after printing `msg`. -/
inductive LoadResult (α : Type) : Type where
  | ok (doc : α)
  | exitWith (msg : String) (status : Nat)

/-- Embedding of `load_dfa` (lines 14–24): `json.load` is abstracted as a parse
function returning `none` exactly on `json.JSONDecodeError`. -/
def load_dfa (fs : FsFile) (parseJson : String → Option DfaDoc) : LoadResult DfaDoc :=
  match fs with
  | .absent => .exitWith "Error: dfa.json not found." 1
  | .present c =>
    match parseJson c with
    | some d => .ok d
    | none => .exitWith "Error: Invalid JSON in dfa.json" 1

/-- Embedding of `load_syntax_tree` (lines 14–24 of the tree script). -/
def load_syntax_tree (fs : FsFile) (parseJson : String → Option TreeDoc) :
    LoadResult TreeDoc :=
  match fs with
  | .absent => .exitWith "Error: syntax_tree.json not found." 1
  | .present c =>
    match parseJson c with
    | some d => .ok d
    | none => .exitWith "Error: Invalid JSON in syntax_tree.json" 1

/-- Every node in the upserted list stems from an upsert key. -/
theorem upsertNode_mem : ∀ (ns : List (Int × Bool)) (i : Int) (b : Bool)
    (e : Int × Bool), e ∈ upsertNode ns i b → e.1 = i ∨ e ∈ ns := by
  intro ns i b e
  induction ns with
  | nil =>
    intro h
    simp only [upsertNode, List.mem_singleton] at h
    exact Or.inl (by rw [h])
  | cons hd rest ih =>
    obtain ⟨j, c⟩ := hd
    by_cases hj : j = i
    · rw [upsertNode, if_pos hj]
      intro h
      rcases List.mem_cons.mp h with h' | h'
      · exact Or.inl (by rw [h', hj])
      · exact Or.inr (List.mem_cons_of_mem _ h')
    · rw [upsertNode, if_neg hj]
      intro h
      rcases List.mem_cons.mp h with h' | h'
      · exact Or.inr (h' ▸ List.mem_cons_self _ _)
      · rcases ih h' with h'' | h''
        · exact Or.inl h''
        · exact Or.inr (List.mem_cons_of_mem _ h'')

/-- Every node id in the built graph is the id of some document state. -/
theorem nodesOf_mem (d : DfaDoc) :
    ∀ e ∈ nodesOf d, ∃ s ∈ d.states, s.id = e.1 := by
  rw [nodesOf]
  induction d.states using List.reverseRecOn with
  | nil => intro e he; simp at he
  | append_singleton sts s ih =>
    intro e he
    rw [List.foldl_append, List.foldl_cons, List.foldl_nil] at he
    rcases upsertNode_mem _ _ _ _ he with h | h
    · exact ⟨s, List.mem_append_right _ (by simp), h.symm⟩
    · obtain ⟨s', hs', hid⟩ := ih e h
      exact ⟨s', List.mem_append_left _ hs', hid⟩

/-- C6 (amended). The accepting-state ids are printed brace-delimited in
the order the states appear in the document's `states` sequence
(filtered to the accepting ones) — never sorted numerically: the
printed sequence is a sublist of the document's state-id sequence and
contains exactly the accepting ids. -/
theorem accepting_states_order (d : DfaDoc) :
    List.Sublist (accepting_states d) (d.states.map DfaState.id) ∧
    ∀ i : Int, i ∈ accepting_states d ↔
      ∃ s ∈ d.states, s.accepting = true ∧ s.id = i := by
  constructor
  · exact List.Sublist.map DfaState.id (List.filter_sublist d.states)
  · intro i
    simp only [accepting_states, List.mem_map, List.mem_filter]
    constructor
    · rintro ⟨s, ⟨hs, hacc⟩, hid⟩; exact ⟨s, hs, by simpa using hacc, hid⟩
    · rintro ⟨s, hs, hacc, hid⟩; exact ⟨s, ⟨hs, by simpa using hacc⟩, hid⟩

/-- C6 (counterexample to the claim as stated): for the document whose
states are `[{id: 2, accepting: true}, {id: 1, accepting: true}]` the
ids are orderable integers, yet the line prints `{2, 1}` — document
order, not ascending numeric order. -/
theorem accepting_states_order_counterexample :
    accepting_states ⟨[⟨2, true⟩, ⟨1, true⟩], some 2, []⟩ = [2, 1] ∧
    ¬ List.Sorted (· ≤ ·) (accepting_states ⟨[⟨2, true⟩, ⟨1, true⟩], some 2, []⟩) ∧
    accepting_states_line ⟨[⟨2, true⟩, ⟨1, true⟩], some 2, []⟩ =
      "Accepting States:  \x7b2, 1\x7d" :=
  ⟨by decide, by decide, by decide⟩

/-- C7 (amended). The tree pipeline prints a diagnostic and skips the
image export exactly when the root is absent, and the DFA pipeline does
so exactly when the state set is empty; a DFA document with a
non-empty state set is exported even if its transition set is empty or
its start state is absent. -/
theorem degenerate_doc_handling (td : TreeDoc) (d : DfaDoc) :
    (td.root = STree.nil →
      draw_tree_outcome td = .skipped "Error: No root node found in syntax tree.") ∧
    (td.root ≠ STree.nil → draw_tree_outcome td = .exported "syntax_tree.png") ∧
    (d.states = [] →
      draw_dfa_outcome d = .skipped "Error: No states found in DFA.") ∧
    (d.states ≠ [] → draw_dfa_outcome d = .exported "dfa.png") := by
  refine ⟨fun h => ?_, fun h => ?_, fun h => ?_, fun h => ?_⟩
  · rw [draw_tree_outcome, if_pos h]
  · rw [draw_tree_outcome, if_neg h]
  · rw [draw_dfa_outcome, if_pos h]
  · rw [draw_dfa_outcome, if_neg h]

theorem degenerate_doc_handling_witness :
    draw_tree_outcome ⟨STree.nil, "", "", ""⟩ =
      .skipped "Error: No root node found in syntax tree." ∧
    draw_tree_outcome ⟨STree.node 0 "a" STree.nil STree.nil, "a", "a", "a"⟩ =
      .exported "syntax_tree.png" ∧
    draw_dfa_outcome ⟨[], none, []⟩ = .skipped "Error: No states found in DFA." ∧
    draw_dfa_outcome ⟨[⟨0, false⟩], none, []⟩ = .exported "dfa.png" :=
  ⟨(degenerate_doc_handling ⟨STree.nil, "", "", ""⟩ ⟨[], none, []⟩).1 rfl,
   (degenerate_doc_handling ⟨STree.node 0 "a" STree.nil STree.nil, "a", "a", "a"⟩
     ⟨[], none, []⟩).2.1 (by decide),
   (degenerate_doc_handling ⟨STree.nil, "", "", ""⟩ ⟨[], none, []⟩).2.2.1 rfl,
   (degenerate_doc_handling ⟨STree.nil, "", "", ""⟩ ⟨[⟨0, false⟩], none, []⟩).2.2.2
     (by decide)⟩

/-- C7 (counterexample to the claim as stated): the DFA document with
one state, no `start_state` and no transitions is degenerate in the
claim's sense (absent start node, empty transition set), yet `draw_dfa`
does not skip the export — it draws and saves `dfa.png`. -/
theorem degenerate_doc_counterexample :
    (⟨[⟨0, false⟩], none, []⟩ : DfaDoc).transitions = [] ∧
    (⟨[⟨0, false⟩], none, []⟩ : DfaDoc).start_state = none ∧
    draw_dfa_outcome ⟨[⟨0, false⟩], none, []⟩ = DrawOutcome.exported "dfa.png" :=
  ⟨rfl, rfl, by decide⟩

/-- C8. Loader contract: for any filesystem state and parse outcome the
loader either returns the fully parsed document (exactly when the file
is present and parses), or prints the `NotFound` / `Malformed` message
and exits with the non-zero status 1 (exactly when the file is absent,
resp. present but unparsable); no other result is possible and no
partial state is returned. -/
theorem loader_contract (parse_dfa : String → Option DfaDoc)
    (parse_tree : String → Option TreeDoc) :
    (load_dfa .absent parse_dfa = .exitWith "Error: dfa.json not found." 1) ∧
    (load_syntax_tree .absent parse_tree =
      .exitWith "Error: syntax_tree.json not found." 1) ∧
    (∀ c, parse_dfa c = none →
      load_dfa (.present c) parse_dfa = .exitWith "Error: Invalid JSON in dfa.json" 1) ∧
    (∀ c d, parse_dfa c = some d → load_dfa (.present c) parse_dfa = .ok d) ∧
    (∀ c, parse_tree c = none →
      load_syntax_tree (.present c) parse_tree =
        .exitWith "Error: Invalid JSON in syntax_tree.json" 1) ∧
    (∀ c d, parse_tree c = some d → load_syntax_tree (.present c) parse_tree = .ok d) ∧
    (∀ fs m s, load_dfa fs parse_dfa = .exitWith m s → s ≠ 0) ∧
    (∀ fs m s, load_syntax_tree fs parse_tree = .exitWith m s → s ≠ 0) ∧
    (∀ fs d, load_dfa fs parse_dfa = .ok d →
      ∃ c, fs = .present c ∧ parse_dfa c = some d) ∧
    (∀ fs d, load_syntax_tree fs parse_tree = .ok d →
      ∃ c, fs = .present c ∧ parse_tree c = some d) := by
  refine ⟨rfl, rfl, ?_, ?_, ?_, ?_, ?_, ?_, ?_, ?_⟩
  · intro c h; rw [load_dfa, h]
  · intro c d h; rw [load_dfa, h]
  · intro c h; rw [load_syntax_tree, h]
  · intro c d h; rw [load_syntax_tree, h]
  · intro fs m s h
    cases fs with
    | absent => cases h; decide
    | present c =>
      rw [load_dfa] at h
      cases hc : parse_dfa c with
      | some d => rw [hc] at h; cases h
      | none => rw [hc] at h; cases h; decide
  · intro fs m s h
    cases fs with
    | absent => cases h; decide
    | present c =>
      rw [load_syntax_tree] at h
      cases hc : parse_tree c with
      | some d => rw [hc] at h; cases h
      | none => rw [hc] at h; cases h; decide
  · intro fs d h
    cases fs with
    | absent => cases h
    | present c =>
      rw [load_dfa] at h
      cases hc : parse_dfa c with
      | some d' => rw [hc] at h; cases h; exact ⟨c, rfl, hc⟩
      | none => rw [hc] at h; cases h
  · intro fs d h
    cases fs with
    | absent => cases h
    | present c =>
      rw [load_syntax_tree] at h
      cases hc : parse_tree c with
      | some d' => rw [hc] at h; cases h; exact ⟨c, rfl, hc⟩
      | none => rw [hc] at h; cases h

theorem loader_contract_witness :
    load_dfa .absent (fun _ => none) = .exitWith "Error: dfa.json not found." 1 ∧
    load_dfa (.present "...") (fun _ => none) =
      .exitWith "Error: Invalid JSON in dfa.json" 1 ∧
    load_dfa (.present "doc") (fun _ => some ⟨[], none, []⟩) = .ok ⟨[], none, []⟩ :=
  ⟨(loader_contract (fun _ => none) (fun _ => none)).1,
   (loader_contract (fun _ => none) (fun _ => none)).2.2.1 "..." rfl,
   (loader_contract (fun _ => some ⟨[], none, []⟩) (fun _ => none)).2.2.2.1
     "doc" ⟨[], none, []⟩ rfl⟩

/-- C9. A dangling `start_state` (a non-empty state set none of whose
ids equals the start id — including an absent start id) is tolerated
silently: the drawing completes and exports the image, no node is
classified as a start state, and no start-indicator arrow or `'Start'`
text directive is produced. -/
theorem dangling_start_state (d : DfaDoc)
    (h1 : d.states ≠ [])
    (h2 : ∀ s ∈ d.states, d.start_state ≠ some s.id) :
    draw_dfa_outcome d = .exported "dfa.png" ∧
    ∀ dir ∈ nodeDirectives d, dir.start_arrow = false := by
  constructor
  · rw [draw_dfa_outcome, if_neg h1]
  · intro dir hdir
    simp only [nodeDirectives, List.mem_map] at hdir
    obtain ⟨⟨i, b⟩, hmem, hdir⟩ := hdir
    obtain ⟨s, hs, hid⟩ := nodesOf_mem d _ hmem
    rw [← hdir]
    show (d.start_state == some i) = false
    rw [beq_eq_false_iff_ne]
    have hid' : s.id = i := hid
    exact hid' ▸ h2 s hs

theorem dangling_start_state_witness :
    draw_dfa_outcome ⟨[⟨0, false⟩, ⟨1, true⟩], some 5, []⟩ = .exported "dfa.png" ∧
    ∀ dir ∈ nodeDirectives ⟨[⟨0, false⟩, ⟨1, true⟩], some 5, []⟩,
      dir.start_arrow = false :=
  dangling_start_state ⟨[⟨0, false⟩, ⟨1, true⟩], some 5, []⟩ (by decide) (by decide)

end AutomataSim
